import Mathlib

/-!
Shallow embedding of the retrieval core of the `lucie-kimoky` repository:
`document_processor.py` (chunking) and `vector_store.py` (similarity index).
Strings are modelled by Lean `String`, float vectors by lists of integers
(exact arithmetic standing in for floating point), and the external OpenAI
embedding provider by an abstract per-text oracle.
-/

namespace LucieKimoky

/-- A chunk produced by `DocumentProcessor.process_file`: the dictionary
`{"text": ..., "chunk_index": ...}`. -/
structure Chunk where
  text : String
  chunk_index : Nat
deriving Repr, DecidableEq

/-- Python `str.strip()` at the character-list level: drop whitespace from
both ends. -/
def stripChars (l : List Char) : List Char :=
  ((l.dropWhile Char.isWhitespace).reverse.dropWhile Char.isWhitespace).reverse

/-- Python `str.strip()`. -/
def pyStrip (s : String) : String := ⟨stripChars s.data⟩

/-- Python `sep.join(parts)`. -/
def pyJoin (sep : String) : List String → String
  | [] => ""
  | [x] => x
  | x :: xs => x ++ sep ++ pyJoin sep xs

/-- Python `str.lower()` (ASCII case folding, enough for file extensions). -/
def lowerStr (s : String) : String := ⟨s.data.map Char.toLower⟩

/-- `os.path.basename`: the part of the path after the last slash. -/
def basename (p : String) : String :=
  ⟨(p.data.reverse.takeWhile (fun c => c ≠ '/')).reverse⟩

/-- `os.path.splitext(p)[1]`: the extension starting at the last dot of the
final path component, unless that component consists only of dots up to that
point (so `".txt"` has no extension, `"a.txt"` has `".txt"`). -/
def splitextExt (p : String) : String :=
  let comp := (p.data.reverse.takeWhile (fun c => c ≠ '/')).reverse
  let revTail := comp.reverse.takeWhile (fun c => c ≠ '.')
  if revTail.length = comp.length then ""
  else
    let stem := comp.take (comp.length - revTail.length - 1)
    if stem.all (fun c => c = '.') then ""
    else ⟨'.' :: revTail.reverse⟩

/-- Python `text.split("\n\n")` at the character-list level: split on each
non-overlapping occurrence of two consecutive newlines, left to right,
keeping empty pieces. -/
def splitParasChars : List Char → List (List Char)
  | [] => [[]]
  | c :: cs =>
    match cs with
    | [] => [[c]]
    | c2 :: rest =>
      if c = '\n' ∧ c2 = '\n' then [] :: splitParasChars rest
      else
        match splitParasChars (c2 :: rest) with
        | [] => [[c]]
        | p :: ps => (c :: p) :: ps

/-- Python `text.split("\n\n")`. -/
def splitParas (s : String) : List String :=
  (splitParasChars s.data).map (fun cs => ⟨cs⟩)

/-- The `.txt`/`.md` loop of `process_file`: `for i, para in
enumerate(paragraphs): if para.strip(): chunks.append({...})`. -/
def processTxtLoop : Nat → List String → List Chunk
  | _, [] => []
  | i, p :: ps =>
    if pyStrip p ≠ "" then ⟨pyStrip p, i⟩ :: processTxtLoop (i + 1) ps
    else processTxtLoop (i + 1) ps

/-- Chunking of a plain-text or markdown file. -/
def processTxt (content : String) : List Chunk :=
  processTxtLoop 0 (splitParas content)

/-- One CSV row turned into a line:
`" | ".join(cell.strip() for cell in row if cell)`. -/
def csvLine (row : List String) : String :=
  pyJoin " | " ((row.filter (fun c => c ≠ "")).map pyStrip)

/-- The `.csv` loop of `process_file`: buffer lines, flush a chunk whenever
the buffer reaches 5 lines, and flush the remaining partial buffer at the
end. -/
def processCsvLoop : List (List String) → List String → Nat → List Chunk → List Chunk
  | [], buffer, ci, chunks =>
    if buffer ≠ [] then chunks ++ [⟨pyJoin " " buffer, ci⟩] else chunks
  | r :: rest, buffer, ci, chunks =>
    let line := csvLine r
    let buffer1 := if line ≠ "" then buffer ++ [line] else buffer
    if 5 ≤ buffer1.length then
      processCsvLoop rest [] (ci + 1) (chunks ++ [⟨pyJoin " " buffer1, ci⟩])
    else
      processCsvLoop rest buffer1 ci chunks

/-- Chunking of a CSV file, starting from an empty buffer. -/
def processCsv (rows : List (List String)) : List Chunk :=
  processCsvLoop rows [] 0 []

/-- What reading a file yields: text content for `.txt`/`.md`, the row
sequence produced by `csv.reader` for `.csv`, or an unreadable file whose
processing raises (caught, yielding no chunks). -/
inductive FileData where
  | txt (content : String)
  | csv (rows : List (List String))
  | unreadable
deriving Repr, DecidableEq

/-- A source file: its path plus what reading it yields. -/
structure File where
  path : String
  data : FileData
deriving Repr, DecidableEq

/-- `DocumentProcessor.process_file`: dispatch on the lower-cased extension;
unsupported extensions and read failures yield no chunks. -/
def process_file (f : File) : List Chunk :=
  let ext := lowerStr (splitextExt f.path)
  if ext = ".txt" ∨ ext = ".md" then
    match f.data with
    | .txt content => processTxt content
    | _ => []
  else if ext = ".csv" then
    match f.data with
    | .csv rows => processCsv rows
    | _ => []
  else []

/-! ## Vector store (`vector_store.py`)

Embedding vectors are lists of integers (an exact stand-in for float arrays).
The OpenAI embedding API is an abstract oracle `Provider`: one optional
vector per text; a batch call succeeds iff the oracle succeeds on every text
of the batch, mirroring an API call that either returns one embedding per
input in order or raises.  `faiss.normalize_L2` is an arbitrary
vector-to-vector map `nrm`, passed explicitly (its numeric content is
irrelevant to the claims). -/

/-- An embedding vector. -/
abbrev Vec := List ℤ

/-- One metadata record of `self.documents`. -/
structure Doc where
  text : String
  source_file : String
  chunk_index : Nat
  index_id : Nat
deriving Repr, DecidableEq

/-- The in-memory state of `VectorStore`: the FAISS index contents (an
ordered collection of vectors) and the parallel metadata list. -/
structure Store where
  vectors : List Vec
  documents : List Doc
deriving Repr, DecidableEq

/-- A store with no vectors and no metadata. -/
def emptyStore : Store := ⟨[], []⟩

/-- The embedding provider: per-text oracle, `none` models a raised
provider error. -/
structure Provider where
  embed : String → Option Vec

/-- One API call on a batch: an embedding per text, in order, or failure. -/
def embedAll (P : Provider) : List String → Option (List Vec)
  | [] => some []
  | t :: ts =>
    match P.embed t, embedAll P ts with
    | some v, some vs => some (v :: vs)
    | _, _ => none

/-- The batch loop of `_get_embeddings`, structured on a budget of batch
calls: each round consumes one batch of 50 texts.  With
`budget = texts.length` the budget is never exhausted, since every round
removes at least one text; the `0` arm (a single final call) is
unreachable. -/
def getEmbBatches (P : Provider) : Nat → List String → Option (List Vec)
  | _, [] => some []
  | 0, ts => embedAll P ts
  | budget + 1, t :: ts =>
    match embedAll P ((t :: ts).take 50), getEmbBatches P budget ((t :: ts).drop 50) with
    | some batch, some rest => some (batch ++ rest)
    | _, _ => none

/-- `VectorStore._get_embeddings`: `for i in range(0, len(texts), 50)`,
one API call per batch of 50, concatenating the results; any failed call
raises, so the whole computation fails. -/
def get_embeddings (P : Provider) (texts : List String) : Option (List Vec) :=
  getEmbBatches P texts.length texts

/-- The metadata-appending loop of `add_documents`:
`self.documents.append({..., "index_id": len(self.documents)})`. -/
def appendDocs (src : String) : List Chunk → List Doc → List Doc
  | [], docs => docs
  | c :: cs, docs => appendDocs src cs (docs ++ [⟨c.text, src, c.chunk_index, docs.length⟩])

/-- `VectorStore.add_documents`: chunk the file; fail on zero chunks; embed
all chunk texts (fail if the provider fails); normalize and append the
vectors; append one metadata record per chunk.  Returns the success flag
and the new state (persistence is best-effort and not modelled). -/
def add_documents (P : Provider) (nrm : Vec → Vec) (f : File) (s : Store) : Bool × Store :=
  let chunks := process_file f
  if chunks.isEmpty then (false, s)
  else
    match get_embeddings P (chunks.map Chunk.text) with
    | none => (false, s)
    | some embs =>
      (true, { vectors := s.vectors ++ embs.map nrm,
               documents := appendDocs (basename f.path) chunks s.documents })

/-- Inner product of two vectors (FAISS `IndexFlatIP` scoring). -/
def dot (a b : Vec) : ℤ := (List.zipWith (· * ·) a b).sum

/-- Scores of the query against every stored vector, tagged with storage
positions starting at `i`. -/
def scoreListFrom (q : Vec) : Nat → List Vec → List (Nat × ℤ)
  | _, [] => []
  | i, v :: vs => (i, dot q v) :: scoreListFrom q (i + 1) vs

/-- FAISS result order: higher score first; among equal scores, the smaller
storage id first. -/
def keyLe (a b : Nat × ℤ) : Prop := b.2 < a.2 ∨ (a.2 = b.2 ∧ a.1 ≤ b.1)

/-- Strict version of `keyLe` on distinct storage ids. -/
def keyGT (a b : Nat × ℤ) : Prop := b.2 < a.2 ∨ (a.2 = b.2 ∧ a.1 < b.1)

instance : DecidableRel keyLe := fun a b => by unfold keyLe; infer_instance

instance : IsTotal (Nat × ℤ) keyLe := ⟨by
  intro a b
  rcases lt_trichotomy a.2 b.2 with h | h | h
  · exact Or.inr (Or.inl h)
  · rcases Nat.le_total a.1 b.1 with h1 | h1
    · exact Or.inl (Or.inr ⟨h, h1⟩)
    · exact Or.inr (Or.inr ⟨h.symm, h1⟩)
  · exact Or.inl (Or.inl h)⟩

instance : IsTrans (Nat × ℤ) keyLe := ⟨by
  rintro a b c (hab | ⟨hab, hab2⟩) (hbc | ⟨hbc, hbc2⟩)
  · exact Or.inl (hbc.trans hab)
  · exact Or.inl (hbc ▸ hab)
  · exact Or.inl (by rw [hab]; exact hbc)
  · exact Or.inr ⟨hab.trans hbc, le_trans hab2 hbc2⟩⟩

/-- The exact top-k search of `faiss.IndexFlatIP`: score every stored
vector, order by descending score (equal scores by ascending id), return
the first `k`. -/
def faissTopK (vecs : List Vec) (q : Vec) (k : Nat) : List (Nat × ℤ) :=
  (List.insertionSort keyLe (scoreListFrom q 0 vecs)).take k

/-- One search result: the copied metadata record plus score and rank. -/
structure SearchResult where
  text : String
  source_file : String
  chunk_index : Nat
  index_id : Nat
  similarity_score : ℤ
  rank : Nat
deriving Repr, DecidableEq

/-- `doc.copy()` plus `similarity_score` and `rank` fields. -/
def toResult (d : Doc) (score : ℤ) (rank : Nat) : SearchResult :=
  ⟨d.text, d.source_file, d.chunk_index, d.index_id, score, rank⟩

/-- The result loop of `search`: enumerate the hits, keep those whose
storage id is a valid metadata position (`0 <= idx < len(self.documents)`),
assigning `rank = i + 1` from the pre-filter enumeration index. -/
def collectResults (docs : List Doc) : Nat → List (Nat × ℤ) → List SearchResult
  | _, [] => []
  | i, h :: hs =>
    if hlt : h.1 < docs.length then
      toResult (docs.get ⟨h.1, hlt⟩) h.2 (i + 1) :: collectResults docs (i + 1) hs
    else collectResults docs (i + 1) hs

/-- `VectorStore.search`: empty index gives no results; a provider failure
while embedding the query is caught and gives no results; otherwise ask the
index for the top `min(top_k, ntotal)` hits and collect the guarded
metadata records. -/
def search (P : Provider) (nrm : Vec → Vec) (s : Store) (query : String) (top_k : Nat) :
    List SearchResult :=
  if s.vectors.length = 0 then []
  else
    match get_embeddings P [query] with
    | none => []
    | some [] => []
    | some (e :: _) =>
      collectResults s.documents 0
        (faissTopK s.vectors (nrm e) (min top_k s.vectors.length))

/-- `VectorStore._load_index`: when both on-disk files exist and load
(`disk = some (vecs, docs)`), replace the in-memory state with their
contents; otherwise keep the current state. -/
def load_index (disk : Option (List Vec × List Doc)) (s : Store) : Store :=
  match disk with
  | none => s
  | some (vecs, docs) => { vectors := vecs, documents := docs }

/-- A directory entry as seen by `os.listdir`: a name, and either a
subdirectory or a file with its readable contents. -/
inductive EntryNode where
  | dirNode
  | fileNode (data : FileData)
deriving Repr, DecidableEq

/-- A named directory entry. -/
structure DirEntry where
  name : String
  node : EntryNode
deriving Repr, DecidableEq

/-- The accepted extensions of `load_documents_from_directory`. -/
def extensions_valides : List String := [".txt", ".md", ".csv"]

/-- The loop of `load_documents_from_directory`: skip subdirectories and
files with other extensions, call `add_documents` on each qualifying file,
counting successes. -/
def loadLoop (P : Provider) (nrm : Vec → Vec) :
    List DirEntry → Nat → Store → Nat × Store
  | [], cnt, s => (cnt, s)
  | e :: es, cnt, s =>
    match e.node with
    | .dirNode => loadLoop P nrm es cnt s
    | .fileNode data =>
      if lowerStr (splitextExt e.name) ∈ extensions_valides then
        let r := add_documents P nrm ⟨e.name, data⟩ s
        loadLoop P nrm es (if r.1 then cnt + 1 else cnt) r.2
      else loadLoop P nrm es cnt s

/-- `VectorStore.load_documents_from_directory`: a missing directory
(`dir = none`) fails with no effect; otherwise run the loop and succeed iff
at least one file loaded. -/
def load_documents_from_directory (P : Provider) (nrm : Vec → Vec)
    (dir : Option (List DirEntry)) (s : Store) : Bool × Store :=
  match dir with
  | none => (false, s)
  | some es =>
    let r := loadLoop P nrm es 0 s
    (decide (0 < r.1), r.2)

/-! ## Derived descriptions used by the theorems -/

/-- Folding `add_documents` over a list of files, counting successes. -/
def runAdds (P : Provider) (nrm : Vec → Vec) : List File → Store → Nat × Store
  | [], s => (0, s)
  | f :: fs, s =>
    let r := add_documents P nrm f s
    let rest := runAdds P nrm fs r.2
    (rest.1 + (if r.1 then 1 else 0), rest.2)

/-- The files of a directory listing that `load_documents_from_directory`
attempts: immediate files whose lower-cased extension is accepted. -/
def qualifyingFiles : List DirEntry → List File
  | [] => []
  | e :: es =>
    match e.node with
    | .dirNode => qualifyingFiles es
    | .fileNode data =>
      if lowerStr (splitextExt e.name) ∈ extensions_valides then
        ⟨e.name, data⟩ :: qualifyingFiles es
      else qualifyingFiles es

/-! ## Batching preserves order: `_get_embeddings` equals one call per text -/

theorem embedAll_append (P : Provider) (l1 l2 : List String) :
    embedAll P (l1 ++ l2) =
      match embedAll P l1, embedAll P l2 with
      | some x, some y => some (x ++ y)
      | _, _ => none := by
  induction l1 with
  | nil => cases h : embedAll P l2 <;> simp [embedAll, h]
  | cons t ts ih =>
    cases he : P.embed t <;> cases hts : embedAll P ts <;> cases hl2 : embedAll P l2 <;>
      simp_all [embedAll]

theorem getEmbBatches_eq (P : Provider) (budget : Nat) (ts : List String) :
    getEmbBatches P budget ts = embedAll P ts := by
  induction budget generalizing ts with
  | zero => cases ts <;> rfl
  | succ b ih =>
    cases ts with
    | nil => rfl
    | cons t ts =>
      rw [getEmbBatches, ih]
      conv_rhs => rw [← List.take_append_drop 50 (t :: ts), embedAll_append]

/-- `_get_embeddings` gives exactly one embedding per input text, in input
order, regardless of the batching into groups of 50. -/
theorem get_embeddings_eq (P : Provider) (ts : List String) :
    get_embeddings P ts = embedAll P ts :=
  getEmbBatches_eq P ts.length ts

theorem embedAll_some_length {P : Provider} {ts : List String} {vs : List Vec}
    (h : embedAll P ts = some vs) : vs.length = ts.length := by
  induction ts generalizing vs with
  | nil => simp only [embedAll, Option.some.injEq] at h; simp [← h]
  | cons t ts ih =>
    rw [embedAll] at h
    cases he : P.embed t with
    | none => rw [he] at h; exact absurd h (by simp)
    | some v =>
      rw [he] at h
      cases hr : embedAll P ts with
      | none => rw [hr] at h; exact absurd h (by simp)
      | some vs2 =>
        rw [hr] at h
        simp only [Option.some.injEq] at h
        simp [← h, ih hr]

theorem embedAll_some_get {P : Provider} {ts : List String} {vs : List Vec}
    (h : embedAll P ts = some vs) :
    ∀ i (h1 : i < ts.length) (h2 : i < vs.length),
      P.embed (ts.get ⟨i, h1⟩) = some (vs.get ⟨i, h2⟩) := by
  induction ts generalizing vs with
  | nil => intro i h1; exact absurd h1 (by simp)
  | cons t ts ih =>
    rw [embedAll] at h
    cases he : P.embed t with
    | none => rw [he] at h; exact absurd h (by simp)
    | some v =>
      rw [he] at h
      cases hr : embedAll P ts with
      | none => rw [hr] at h; exact absurd h (by simp)
      | some vs2 =>
        rw [hr] at h
        simp only [Option.some.injEq] at h
        subst h
        intro i h1 h2
        cases i with
        | zero => simpa using he
        | succ j =>
          simp only [List.get_cons_succ]
          exact ih hr j (by simpa using h1) (by simpa using h2)

/-! ## Claim theorems: error handling (C5, C6, C7) -/

/-- C5 (code bug evidence): restoring from on-disk files holding one vector
and zero metadata records keeps the mismatched pair in memory; `_load_index`
performs no count-consistency check and does not fall back to an empty
index. -/
theorem load_index_keeps_mismatch :
    (load_index (some ([[1]], [])) emptyStore).vectors.length = 1 ∧
    (load_index (some ([[1]], [])) emptyStore).documents.length = 0 := by
  exact ⟨rfl, rfl⟩

/-- C6: `add_documents` is atomic on failure: if the chunker yields zero
chunks, or the embedding provider fails on the chunk texts, the call
returns failure and the store is unchanged. -/
theorem add_documents_atomic (P : Provider) (nrm : Vec → Vec) (f : File) (s : Store)
    (h : process_file f = [] ∨ get_embeddings P ((process_file f).map Chunk.text) = none) :
    add_documents P nrm f s = (false, s) := by
  unfold add_documents
  rcases h with h | h
  · simp [h]
  · by_cases he : (process_file f).isEmpty
    · simp [he]
    · simp [he, h]

theorem add_documents_atomic_witness :
    add_documents ⟨fun _ => none⟩ id ⟨"x.pdf", FileData.txt "hi"⟩ emptyStore
        = (false, emptyStore) ∧
    add_documents ⟨fun _ => none⟩ id ⟨"a.txt", FileData.txt "hi"⟩ emptyStore
        = (false, emptyStore) :=
  ⟨add_documents_atomic _ _ _ _ (Or.inl (by decide)),
   add_documents_atomic _ _ _ _ (Or.inr (by decide))⟩

/-- C7: `search` fails soft: with an empty index it returns the empty
sequence, and when the provider fails on the query it returns the empty
sequence instead of raising.  (`search` reads but never writes the store:
it is a pure function of the state in this embedding, as in the source.) -/
theorem search_fails_soft (P : Provider) (nrm : Vec → Vec) (s : Store) (q : String)
    (k : Nat) (_hk : 1 ≤ k) :
    (s.vectors.length = 0 → search P nrm s q k = []) ∧
    (P.embed q = none → search P nrm s q k = []) := by
  constructor
  · intro h; simp [search, h]
  · intro h
    unfold search
    by_cases hv : s.vectors.length = 0
    · simp [hv]
    · have hq : get_embeddings P [q] = none := by
        rw [get_embeddings_eq]
        simp [embedAll, h]
      simp [hv, hq]

theorem search_fails_soft_witness :
    search ⟨fun _ => none⟩ id emptyStore "q" 1 = [] ∧
    search ⟨fun _ => none⟩ id ⟨[[1]], [⟨"t", "f.txt", 0, 0⟩]⟩ "q" 1 = [] :=
  ⟨(search_fails_soft _ id emptyStore "q" 1 (by decide)).1 rfl,
   (search_fails_soft _ id ⟨[[1]], [⟨"t", "f.txt", 0, 0⟩]⟩ "q" 1 (by decide)).2 rfl⟩

/-! ## Counterexamples for the chunking claims (C3, C4, C9) -/

/-- C3 counterexample: the file content `"a\n\n\n\nb"` yields chunks with
`chunk_index` values `[0, 2]`, not the contiguous range `[0, 1]`: the code
numbers chunks by their position among all split paragraphs, blank ones
included. -/
theorem txt_chunk_index_not_contiguous :
    ¬ ((process_file ⟨"a.txt", FileData.txt "a\n\n\n\nb"⟩).map Chunk.chunk_index
      = List.range (process_file ⟨"a.txt", FileData.txt "a\n\n\n\nb"⟩).length) := by
  decide

/-- C4 counterexample: a CSV with the single row `["", ""]` (one data row,
all cells empty) yields 0 chunks, not `ceil(1/5) = 1`: rows whose joined
non-empty cells form a blank line are skipped and never enter the buffer. -/
theorem csv_blank_row_breaks_count :
    (process_file ⟨"d.csv", FileData.csv [["", ""]]⟩).length ≠ (1 + 4) / 5 := by
  decide

/-- C9 counterexample: the CSV row `[" ", "x"]` produces the single chunk
text `" | x"`, which is not equal to its own stripped value: a
whitespace-only (but non-empty) cell strips to the empty string yet still
contributes a separator, leaving leading whitespace. -/
theorem csv_chunk_not_trimmed :
    (process_file ⟨"d.csv", FileData.csv [[" ", "x"]]⟩).map Chunk.text = [" | x"] ∧
    pyStrip " | x" ≠ " | x" := by
  decide

/-! ## C8: directory loading -/

theorem loadLoop_eq (P : Provider) (nrm : Vec → Vec) (es : List DirEntry) :
    ∀ (cnt : Nat) (s : Store),
      loadLoop P nrm es cnt s =
        (cnt + (runAdds P nrm (qualifyingFiles es) s).1,
         (runAdds P nrm (qualifyingFiles es) s).2) := by
  induction es with
  | nil => intro cnt s; simp [loadLoop, qualifyingFiles, runAdds]
  | cons e es ih =>
    intro cnt s
    obtain ⟨name, node⟩ := e
    cases node with
    | dirNode => simp [loadLoop, qualifyingFiles, ih]
    | fileNode data =>
      by_cases hq : lowerStr (splitextExt name) ∈ extensions_valides
      · simp only [loadLoop, qualifyingFiles, hq, if_pos, runAdds, ih]
        cases (add_documents P nrm ⟨name, data⟩ s).1 <;> (simp; try omega)
      · simp [loadLoop, qualifyingFiles, hq, ih]

/-- C8: `load_documents_from_directory` of a missing directory fails and
leaves the store unchanged; of a listing, it attempts `add_documents` on
exactly the immediate files whose lower-cased extension is `.txt`, `.md` or
`.csv` (in listing order, independently, so one failure blocks no other
file), leaves the store at the fold of those attempts, and succeeds iff at
least one attempt succeeded. -/
theorem load_from_directory_spec (P : Provider) (nrm : Vec → Vec) :
    (∀ s, load_documents_from_directory P nrm none s = (false, s)) ∧
    (∀ es s,
      load_documents_from_directory P nrm (some es) s =
        (decide (0 < (runAdds P nrm (qualifyingFiles es) s).1),
         (runAdds P nrm (qualifyingFiles es) s).2)) ∧
    (∀ es s,
      (load_documents_from_directory P nrm (some es) s).1 = true ↔
        0 < (runAdds P nrm (qualifyingFiles es) s).1) := by
  have key : ∀ es s,
      load_documents_from_directory P nrm (some es) s =
        (decide (0 < (runAdds P nrm (qualifyingFiles es) s).1),
         (runAdds P nrm (qualifyingFiles es) s).2) := by
    intro es s
    simp only [load_documents_from_directory, loadLoop_eq, Nat.zero_add]
  refine ⟨fun s => rfl, key, fun es s => ?_⟩
  rw [key es s]
  simp

/-! ## C1: the parallel-array invariant -/

/-- The parallel-array invariant of the store: the vector collection and
the metadata list have equal length, the metadata record at position `k`
carries `index_id = k`, and the vector at position `k` is the normalized
provider embedding of that record's text. -/
def storeInv (P : Provider) (nrm : Vec → Vec) (s : Store) : Prop :=
  s.vectors.length = s.documents.length ∧
  ∀ k (hk : k < s.documents.length) (hv : k < s.vectors.length),
    (s.documents.get ⟨k, hk⟩).index_id = k ∧
    ∃ v, P.embed ((s.documents.get ⟨k, hk⟩).text) = some v ∧
      s.vectors.get ⟨k, hv⟩ = nrm v

/-- Closed form of the metadata records appended for one file. -/
def buildDocs (src : String) : Nat → List Chunk → List Doc
  | _, [] => []
  | n, c :: cs => ⟨c.text, src, c.chunk_index, n⟩ :: buildDocs src (n + 1) cs

theorem appendDocs_eq (src : String) :
    ∀ (cs : List Chunk) (docs : List Doc),
      appendDocs src cs docs = docs ++ buildDocs src docs.length cs := by
  intro cs
  induction cs with
  | nil => intro docs; simp [appendDocs, buildDocs]
  | cons c cs ih =>
    intro docs
    rw [appendDocs, ih]
    simp [buildDocs]

theorem buildDocs_length (src : String) (n : Nat) (cs : List Chunk) :
    (buildDocs src n cs).length = cs.length := by
  induction cs generalizing n with
  | nil => rfl
  | cons c cs ih => simp [buildDocs, ih]

theorem buildDocs_getElem (src : String) (cs : List Chunk) :
    ∀ (n i : Nat) (h : i < cs.length) (h2 : i < (buildDocs src n cs).length),
      (buildDocs src n cs)[i] =
        ⟨cs[i].text, src, cs[i].chunk_index, n + i⟩ := by
  induction cs with
  | nil => intro n i h; exact absurd h (by simp)
  | cons c cs ih =>
    intro n i h h2
    cases i with
    | zero => rfl
    | succ j =>
      have hb : j < (buildDocs src (n + 1) cs).length := by
        simpa [buildDocs] using h2
      simp only [buildDocs, List.getElem_cons_succ]
      rw [ih (n + 1) j (by simpa using h) hb]
      have : n + 1 + j = n + (j + 1) := by omega
      rw [this]

theorem embedAll_some_getElem {P : Provider} {ts : List String} {vs : List Vec}
    (h : embedAll P ts = some vs) :
    ∀ i (h1 : i < ts.length) (h2 : i < vs.length),
      P.embed ts[i] = some vs[i] := by
  induction ts generalizing vs with
  | nil => intro i h1; exact absurd h1 (by simp)
  | cons t ts ih =>
    rw [embedAll] at h
    cases he : P.embed t with
    | none => rw [he] at h; exact absurd h (by simp)
    | some v =>
      rw [he] at h
      cases hr : embedAll P ts with
      | none => rw [hr] at h; exact absurd h (by simp)
      | some vs2 =>
        rw [hr] at h
        simp only [Option.some.injEq] at h
        subst h
        intro i h1 h2
        cases i with
        | zero => simpa using he
        | succ j =>
          simp only [List.getElem_cons_succ]
          exact ih hr j (by simpa using h1) (by simpa using h2)

theorem getElem_idx_eq {α : Type} (l : List α) {i j : Nat} (h : i = j)
    (hi : i < l.length) (hj : j < l.length) : l[i] = l[j] := by
  subst h; rfl

theorem add_documents_inv (P : Provider) (nrm : Vec → Vec) (f : File) (s : Store)
    (h : storeInv P nrm s) : storeInv P nrm (add_documents P nrm f s).2 := by
  unfold add_documents
  by_cases he : (process_file f).isEmpty
  · simpa [he] using h
  · cases hge : get_embeddings P ((process_file f).map Chunk.text) with
    | none => simpa [he, hge] using h
    | some embs =>
      simp only [he, hge, Bool.false_eq_true, if_false]
      rw [get_embeddings_eq] at hge
      have hlen : embs.length = (process_file f).length := by
        simpa using embedAll_some_length hge
      rw [appendDocs_eq]
      obtain ⟨hslen, hsget⟩ := h
      constructor
      · simp [buildDocs_length, hslen, hlen]
      · intro k hk hv
        simp only [List.length_append, buildDocs_length] at hk
        simp only [List.length_append, List.length_map] at hv
        simp only [List.get_eq_getElem]
        by_cases hlt : k < s.documents.length
        · have hvlt : k < s.vectors.length := by omega
          obtain ⟨hid, v, hvv, hnrm⟩ := hsget k hlt hvlt
          rw [List.getElem_append_left hlt, List.getElem_append_left hvlt]
          simp only [List.get_eq_getElem] at hid hvv hnrm
          exact ⟨hid, v, hvv, hnrm⟩
        · have hkd : s.documents.length ≤ k := by omega
          have hkv : s.vectors.length ≤ k := by omega
          have hge2 : k - s.documents.length < (process_file f).length := by omega
          have hb2 : k - s.documents.length <
              (buildDocs (basename f.path) s.documents.length (process_file f)).length := by
            rw [buildDocs_length]; omega
          rw [List.getElem_append_right hkd, List.getElem_append_right hkv,
            buildDocs_getElem _ _ _ _ hge2 hb2]
          have hme : k - s.documents.length < embs.length := by omega
          refine ⟨by show s.documents.length + (k - s.documents.length) = k; omega,
                  embs[k - s.documents.length], ?_, ?_⟩
          · have hmt : k - s.documents.length < ((process_file f).map Chunk.text).length := by
              simpa using hge2
            have := embedAll_some_getElem hge (k - s.documents.length) hmt hme
            simp only [List.getElem_map] at this
            exact this
          · rw [List.getElem_map]
            have he2 : embs[k - s.vectors.length] = embs[k - s.documents.length] :=
              getElem_idx_eq embs (by omega) (by omega) hme
            rw [he2]

/-- C1: after any sequence of `add_documents` calls starting from the empty
index, the store satisfies the parallel-array invariant: equal lengths, the
`k`-th metadata record has `index_id = k`, and the `k`-th stored vector is
the normalized embedding of the `k`-th record's text; moreover the batching
of `_get_embeddings` into groups of 50 preserves input order (it equals one
provider call per text, in order). -/
theorem add_documents_parallel_invariant (P : Provider) (nrm : Vec → Vec)
    (files : List File) :
    storeInv P nrm (runAdds P nrm files emptyStore).2 ∧
    ∀ ts, get_embeddings P ts = embedAll P ts := by
  refine ⟨?_, get_embeddings_eq P⟩
  have step : ∀ (fs : List File) (s : Store),
      storeInv P nrm s → storeInv P nrm (runAdds P nrm fs s).2 := by
    intro fs
    induction fs with
    | nil => intro s hs; exact hs
    | cons f fs ih =>
      intro s hs
      simp only [runAdds]
      exact ih _ (add_documents_inv P nrm f s hs)
  refine step files emptyStore ⟨rfl, ?_⟩
  intro k hk
  exact absurd hk (by simp [emptyStore])

/-! ## Stripping is idempotent -/

theorem dropWhile_head?_not {α : Type} (p : α → Bool) (l : List α) :
    ∀ c, (l.dropWhile p).head? = some c → p c = false := by
  induction l with
  | nil => intro c h; simp [List.dropWhile] at h
  | cons a l ih =>
    intro c h
    rw [List.dropWhile_cons] at h
    by_cases pa : p a = true
    · rw [if_pos pa] at h
      exact ih c h
    · rw [if_neg pa] at h
      simp only [List.head?_cons, Option.some.injEq] at h
      subst h
      simpa using pa

theorem dropWhile_eq_self_of_head? {α : Type} (p : α → Bool) (m : List α)
    (h : ∀ c, m.head? = some c → p c = false) : m.dropWhile p = m := by
  cases m with
  | nil => rfl
  | cons a l =>
    rw [List.dropWhile_cons, if_neg]
    simp [h a rfl]

theorem getLast?_dropWhile {α : Type} (p : α → Bool) (l : List α)
    (h : l.dropWhile p ≠ []) : (l.dropWhile p).getLast? = l.getLast? := by
  induction l with
  | nil => exact absurd rfl h
  | cons a l ih =>
    by_cases pa : p a = true
    · rw [List.dropWhile_cons, if_pos pa] at h ⊢
      have hl : l ≠ [] := by
        intro he
        rw [he] at h
        exact h rfl
      rw [ih h]
      obtain ⟨b, m, rfl⟩ := List.exists_cons_of_ne_nil hl
      rw [List.getLast?_cons_cons]
    · rw [List.dropWhile_cons, if_neg pa]

theorem stripChars_idem (l : List Char) : stripChars (stripChars l) = stripChars l := by
  set w := Char.isWhitespace with hw
  set A := l.dropWhile w with hA
  set C := A.reverse.dropWhile w with hC
  show stripChars C.reverse = C.reverse
  have hhead : ∀ c, C.reverse.head? = some c → w c = false := by
    intro c hc
    by_cases hCe : C = []
    · rw [hCe] at hc
      simp at hc
    · rw [List.head?_reverse] at hc
      rw [hC] at hc
      rw [getLast?_dropWhile w A.reverse (by rw [← hC]; simpa using hCe)] at hc
      rw [List.getLast?_reverse] at hc
      exact dropWhile_head?_not w l c (by rw [← hA]; exact hc)
  have h1 : C.reverse.dropWhile w = C.reverse := dropWhile_eq_self_of_head? w _ hhead
  have h2 : C.dropWhile w = C := by
    refine dropWhile_eq_self_of_head? w C ?_
    intro c hc
    exact dropWhile_head?_not w A.reverse c (by rw [← hC]; exact hc)
  unfold stripChars
  rw [h1, List.reverse_reverse, h2]

theorem pyStrip_idem (s : String) : pyStrip (pyStrip s) = pyStrip s := by
  unfold pyStrip
  exact congrArg String.mk (stripChars_idem s.data)

/-! ## C3: plain-text chunk indexing -/

/-- The texts the spec says a plain-text file should yield: the non-blank
paragraphs, trimmed, in order. -/
def nonBlankTexts (paras : List String) : List String :=
  (paras.filter (fun p => pyStrip p ≠ "")).map pyStrip

/-- The positions (counted from `i`, among all paragraphs) of the non-blank
paragraphs. -/
def nonBlankPositions : Nat → List String → List Nat
  | _, [] => []
  | i, p :: ps =>
    if pyStrip p ≠ "" then i :: nonBlankPositions (i + 1) ps
    else nonBlankPositions (i + 1) ps

theorem processTxtLoop_texts (ps : List String) :
    ∀ i, (processTxtLoop i ps).map Chunk.text = nonBlankTexts ps := by
  induction ps with
  | nil => intro i; rfl
  | cons p ps ih =>
    intro i
    by_cases h : pyStrip p = ""
    · simp [processTxtLoop, nonBlankTexts, List.filter_cons, h, ih (i + 1),
        nonBlankTexts]
    · simp [processTxtLoop, nonBlankTexts, List.filter_cons, h, ih (i + 1),
        nonBlankTexts]

theorem processTxtLoop_indices (ps : List String) :
    ∀ i, (processTxtLoop i ps).map Chunk.chunk_index = nonBlankPositions i ps := by
  induction ps with
  | nil => intro i; rfl
  | cons p ps ih =>
    intro i
    by_cases h : pyStrip p = ""
    · simp [processTxtLoop, nonBlankPositions, h, ih (i + 1)]
    · simp [processTxtLoop, nonBlankPositions, h, ih (i + 1)]

theorem nonBlankPositions_le (ps : List String) :
    ∀ i j, j ∈ nonBlankPositions i ps → i ≤ j := by
  induction ps with
  | nil => intro i j h; simp [nonBlankPositions] at h
  | cons p ps ih =>
    intro i j h
    rw [nonBlankPositions] at h
    by_cases hp : pyStrip p ≠ ""
    · rw [if_pos hp] at h
      rcases List.mem_cons.mp h with rfl | h
      · exact Nat.le_refl j
      · exact Nat.le_of_succ_le (ih (i + 1) j h)
    · rw [if_neg hp] at h
      exact Nat.le_of_succ_le (ih (i + 1) j h)

theorem nonBlankPositions_pairwise (ps : List String) :
    ∀ i, (nonBlankPositions i ps).Pairwise (· < ·) := by
  induction ps with
  | nil => intro i; simp [nonBlankPositions]
  | cons p ps ih =>
    intro i
    rw [nonBlankPositions]
    by_cases hp : pyStrip p ≠ ""
    · rw [if_pos hp]
      refine List.Pairwise.cons ?_ (ih (i + 1))
      intro j hj
      exact Nat.lt_of_succ_le (nonBlankPositions_le ps (i + 1) j hj)
    · rw [if_neg hp]
      exact ih (i + 1)

/-- C3 (amended): for a `.txt`/`.md` file, the chunk texts are exactly the
non-blank paragraphs of the blank-line split, trimmed, in order; each
chunk's `chunk_index` is the paragraph's 0-based position among **all**
paragraphs of the split (blank paragraphs counted), so the indices are
strictly increasing but not necessarily the contiguous range `0..n-1`. -/
theorem txt_chunk_indexing (p content : String)
    (hext : lowerStr (splitextExt p) = ".txt" ∨ lowerStr (splitextExt p) = ".md") :
    (process_file ⟨p, FileData.txt content⟩).map Chunk.text
        = nonBlankTexts (splitParas content) ∧
    (process_file ⟨p, FileData.txt content⟩).map Chunk.chunk_index
        = nonBlankPositions 0 (splitParas content) ∧
    ((process_file ⟨p, FileData.txt content⟩).map Chunk.chunk_index).Pairwise (· < ·) := by
  have hpf : process_file ⟨p, FileData.txt content⟩ = processTxt content := by
    unfold process_file
    rcases hext with h | h <;> simp [h]
  rw [hpf]
  unfold processTxt
  refine ⟨processTxtLoop_texts _ 0, processTxtLoop_indices _ 0, ?_⟩
  rw [processTxtLoop_indices]
  exact nonBlankPositions_pairwise _ 0

theorem txt_chunk_indexing_witness :
    (process_file ⟨"notes.txt", FileData.txt "a\n\n\n\nb"⟩).map Chunk.chunk_index
      = nonBlankPositions 0 (splitParas "a\n\n\n\nb") :=
  (txt_chunk_indexing "notes.txt" "a\n\n\n\nb" (Or.inl (by decide))).2.1

/-! ## C4: CSV chunk grouping -/

/-- The non-blank lines a CSV's rows yield, in order (rows whose joined
non-empty cells form a blank line contribute nothing). -/
def csvLines (rows : List (List String)) : List String :=
  (rows.map csvLine).filter (fun l => l ≠ "")

/-- Grouping a list into consecutive groups of five; the last group may be
shorter. -/
def groupsOf5 : List String → List (List String)
  | [] => []
  | x :: xs => ((x :: xs).take 5) :: groupsOf5 ((x :: xs).drop 5)
termination_by l => l.length
decreasing_by simp only [List.length_drop, List.length_cons]; omega

/-- One chunk per group, numbering from `ci`, each group joined by a single
space. -/
def chunkify : Nat → List (List String) → List Chunk
  | _, [] => []
  | ci, g :: gs => ⟨pyJoin " " g, ci⟩ :: chunkify (ci + 1) gs

theorem groupsOf5_of_short (l : List String) (h0 : l ≠ []) (h5 : l.length ≤ 5) :
    groupsOf5 l = [l] := by
  obtain ⟨x, xs, rfl⟩ := List.exists_cons_of_ne_nil h0
  rw [groupsOf5, List.take_of_length_le h5, List.drop_eq_nil_of_le h5, groupsOf5]

theorem groupsOf5_cons_of_five (A B : List String) (hA : A.length = 5) :
    groupsOf5 (A ++ B) = A :: groupsOf5 B := by
  obtain ⟨x, xs, rfl⟩ : ∃ x xs, A = x :: xs := by
    cases A with
    | nil => simp at hA
    | cons x xs => exact ⟨x, xs, rfl⟩
  rw [List.cons_append, groupsOf5]
  congr 1
  · rw [← List.cons_append, List.take_append_eq_append_take,
      List.take_of_length_le (le_of_eq hA), hA]
    simp
  · rw [← List.cons_append, List.drop_append_eq_append_drop,
      List.drop_eq_nil_of_le (le_of_eq hA), hA]
    simp

theorem processCsvLoop_eq (rows : List (List String)) :
    ∀ (buffer : List String) (ci : Nat) (chunks : List Chunk),
      buffer.length < 5 →
      processCsvLoop rows buffer ci chunks =
        chunks ++ chunkify ci (groupsOf5 (buffer ++ csvLines rows)) := by
  induction rows with
  | nil =>
    intro buffer ci chunks hlen
    rw [processCsvLoop]
    simp only [csvLines, List.map_nil, List.filter_nil, List.append_nil]
    by_cases hb : buffer = []
    · subst hb
      simp [groupsOf5, chunkify]
    · rw [if_pos hb, groupsOf5_of_short buffer hb (by omega)]
      rfl
  | cons r rest ih =>
    intro buffer ci chunks hlen
    rw [processCsvLoop]
    by_cases hl : csvLine r = ""
    · simp only [hl, ne_eq, not_true_eq_false, if_false]
      rw [if_neg (by omega)]
      rw [ih buffer ci chunks hlen]
      simp [csvLines, List.filter_cons, hl]
    · rw [if_pos hl]
      have hcsv : csvLines (r :: rest) = csvLine r :: csvLines rest := by
        simp [csvLines, List.filter_cons, hl]
      by_cases h5 : 5 ≤ (buffer ++ [csvLine r]).length
      · rw [if_pos h5]
        have hA : (buffer ++ [csvLine r]).length = 5 := by
          simp only [List.length_append, List.length_cons, List.length_nil] at h5 ⊢
          omega
        rw [ih [] (ci + 1) _ (by simp)]
        have hsplit : buffer ++ csvLine r :: csvLines rest
            = (buffer ++ [csvLine r]) ++ csvLines rest := by simp
        rw [hcsv, hsplit, groupsOf5_cons_of_five _ _ hA, chunkify]
        simp
      · rw [if_neg h5]
        have hlen1 : (buffer ++ [csvLine r]).length < 5 := by omega
        rw [ih _ ci chunks hlen1, hcsv]
        simp [List.append_assoc]

theorem processCsv_eq (rows : List (List String)) :
    processCsv rows = chunkify 0 (groupsOf5 (csvLines rows)) := by
  unfold processCsv
  rw [processCsvLoop_eq rows [] 0 [] (by simp)]
  simp

theorem chunkify_length (gs : List (List String)) :
    ∀ ci, (chunkify ci gs).length = gs.length := by
  induction gs with
  | nil => intro ci; rfl
  | cons g gs ih => intro ci; simp [chunkify, ih (ci + 1)]

theorem groupsOf5_length (l : List String) :
    (groupsOf5 l).length = (l.length + 4) / 5 := by
  induction l using groupsOf5.induct with
  | case1 => simp [groupsOf5]
  | case2 x xs ih =>
    rw [groupsOf5]
    simp only [List.length_cons, List.length_take, List.length_drop] at ih ⊢
    rw [ih]
    omega

theorem groupsOf5_ne_nil (l : List String) (h : l ≠ []) : groupsOf5 l ≠ [] := by
  obtain ⟨x, xs, rfl⟩ := List.exists_cons_of_ne_nil h
  rw [groupsOf5]
  simp

theorem groupsOf5_getLast (l : List String) :
    ∀ g, (groupsOf5 l).getLast? = some g →
      g.length = if l.length % 5 = 0 then 5 else l.length % 5 := by
  induction l using groupsOf5.induct with
  | case1 => intro g hg; simp [groupsOf5] at hg
  | case2 x xs ih =>
    intro g hg
    rw [groupsOf5] at hg
    by_cases hd : (x :: xs).drop 5 = []
    · have hle : (x :: xs).length ≤ 5 := by
        have := congrArg List.length hd
        simp only [List.length_drop, List.length_nil] at this
        omega
      rw [hd] at hg
      simp only [groupsOf5, List.getLast?_cons, List.getLast?_nil, Option.getD_none,
        Option.some.injEq] at hg
      subst hg
      rw [List.take_of_length_le hle]
      have h1 : 1 ≤ (x :: xs).length := by simp
      by_cases hm : (x :: xs).length % 5 = 0
      · rw [if_pos hm]; omega
      · rw [if_neg hm]; omega
    · have hgs : groupsOf5 ((x :: xs).drop 5) ≠ [] := groupsOf5_ne_nil _ hd
      obtain ⟨g1, gs1, hcons⟩ := List.exists_cons_of_ne_nil hgs
      rw [hcons, List.getLast?_cons_cons, ← hcons] at hg
      have hlen5 : 5 < (x :: xs).length := by
        by_contra hc
        exact hd (List.drop_eq_nil_of_le (by omega))
      have := ih g hg
      simp only [List.length_drop] at this
      have hmod : ((x :: xs).length - 5) % 5 = (x :: xs).length % 5 := by omega
      rw [hmod] at this
      exact this

/-- C4 (amended): for every CSV input, with `R` the number of rows whose
joined non-empty stripped cells form a non-blank line, `process_file`
produces `ceil(R/5)` chunks, grouping those lines five at a time in input
order (the buffer flushes at 5 lines, the remaining partial buffer flushes
at the end), and the last chunk holds `R mod 5` lines (or 5 when `R` is
divisible by 5); rows yielding a blank line are skipped and do not count
toward `R`. -/
theorem csv_chunk_grouping (p : String) (rows : List (List String))
    (hext : lowerStr (splitextExt p) = ".csv") :
    process_file ⟨p, FileData.csv rows⟩ = chunkify 0 (groupsOf5 (csvLines rows)) ∧
    (process_file ⟨p, FileData.csv rows⟩).length = ((csvLines rows).length + 4) / 5 ∧
    (∀ g, (groupsOf5 (csvLines rows)).getLast? = some g →
      g.length = if (csvLines rows).length % 5 = 0 then 5
                 else (csvLines rows).length % 5) := by
  have hpf : process_file ⟨p, FileData.csv rows⟩ = processCsv rows := by
    unfold process_file
    rw [hext]
    simp
  rw [hpf, processCsv_eq]
  exact ⟨rfl, by rw [chunkify_length, groupsOf5_length], groupsOf5_getLast _⟩

theorem csv_chunk_grouping_witness :
    (process_file ⟨"d.csv", FileData.csv
        [["a"], ["b"], ["c"], ["d"], ["e"], ["f"]]⟩).length
      = ((csvLines [["a"], ["b"], ["c"], ["d"], ["e"], ["f"]]).length + 4) / 5 :=
  (csv_chunk_grouping "d.csv" [["a"], ["b"], ["c"], ["d"], ["e"], ["f"]]
    (by decide)).2.1

/-! ## C9: chunk text postcondition -/

theorem str_ne_empty_iff (s : String) : s ≠ "" ↔ s.data ≠ [] := by
  constructor
  · intro h he
    exact h (String.ext_iff.mpr he)
  · intro h he
    exact h (by rw [he])

theorem pyJoin_ne_empty (sep : String) (g : List String) (hg : g ≠ [])
    (hx : ∀ x ∈ g, x ≠ "") : pyJoin sep g ≠ "" := by
  cases g with
  | nil => exact absurd rfl hg
  | cons x xs =>
    cases xs with
    | nil => exact hx x (by simp)
    | cons y ys =>
      have hpj : pyJoin sep (x :: y :: ys) = x ++ sep ++ pyJoin sep (y :: ys) := rfl
      rw [hpj, str_ne_empty_iff, String.data_append, String.data_append]
      have hxne : x.data ≠ [] := (str_ne_empty_iff x).mp (hx x (by simp))
      intro hcon
      rw [List.append_assoc] at hcon
      exact hxne (List.append_eq_nil.mp hcon).1

theorem processTxt_text (content : String) (c : Chunk) (hc : c ∈ processTxt content) :
    c.text ≠ "" ∧ pyStrip c.text = c.text := by
  have hmem : c.text ∈ (processTxtLoop 0 (splitParas content)).map Chunk.text :=
    List.mem_map_of_mem _ hc
  rw [processTxtLoop_texts] at hmem
  obtain ⟨p, hp, hpt⟩ := List.mem_map.mp hmem
  have hpne : pyStrip p ≠ "" := by simpa using (List.mem_filter.mp hp).2
  constructor
  · rw [← hpt]; exact hpne
  · rw [← hpt]; exact pyStrip_idem p

theorem chunkify_mem (gs : List (List String)) :
    ∀ ci c, c ∈ chunkify ci gs → ∃ g ∈ gs, c.text = pyJoin " " g := by
  induction gs with
  | nil => intro ci c hc; simp [chunkify] at hc
  | cons g gs ih =>
    intro ci c hc
    rw [chunkify] at hc
    rcases List.mem_cons.mp hc with rfl | hc
    · exact ⟨g, by simp, rfl⟩
    · obtain ⟨g2, hg2, he⟩ := ih (ci + 1) c hc
      exact ⟨g2, by simp [hg2], he⟩

theorem groupsOf5_mem (l : List String) :
    ∀ g, g ∈ groupsOf5 l → g ≠ [] ∧ ∀ x ∈ g, x ∈ l := by
  induction l using groupsOf5.induct with
  | case1 => intro g hg; simp [groupsOf5] at hg
  | case2 x xs ih =>
    intro g hg
    rw [groupsOf5] at hg
    rcases List.mem_cons.mp hg with rfl | hg
    · refine ⟨by simp, ?_⟩
      intro y hy
      exact List.take_subset _ _ hy
    · obtain ⟨hne, hmem⟩ := ih g hg
      exact ⟨hne, fun y hy => List.drop_subset _ _ (hmem y hy)⟩

theorem csvLines_mem (rows : List (List String)) (x : String)
    (hx : x ∈ csvLines rows) : x ≠ "" := by
  simpa using (List.mem_filter.mp hx).2

/-- C9 (amended): every chunk produced by `process_file` has non-empty
text; for `.txt`/`.md` files the text is additionally trimmed (equal to its
own stripped value).  CSV chunk text need not be trimmed: a
whitespace-only, non-empty cell strips to nothing yet still contributes a
`" | "` separator. -/
theorem chunk_text_postcondition (f : File) :
    (∀ c ∈ process_file f, c.text ≠ "") ∧
    ((lowerStr (splitextExt f.path) = ".txt" ∨ lowerStr (splitextExt f.path) = ".md") →
      ∀ c ∈ process_file f, pyStrip c.text = c.text) := by
  by_cases h1 : lowerStr (splitextExt f.path) = ".txt" ∨ lowerStr (splitextExt f.path) = ".md"
  · cases hd : f.data with
    | txt content =>
      have hpf : process_file f = processTxt content := by
        unfold process_file
        rcases h1 with h | h <;> simp [h, hd]
      rw [hpf]
      exact ⟨fun c hc => (processTxt_text content c hc).1,
             fun _ c hc => (processTxt_text content c hc).2⟩
    | csv rows =>
      have hpf : process_file f = [] := by
        unfold process_file
        rcases h1 with h | h <;> simp [h, hd]
      simp [hpf]
    | unreadable =>
      have hpf : process_file f = [] := by
        unfold process_file
        rcases h1 with h | h <;> simp [h, hd]
      simp [hpf]
  · refine ⟨?_, fun hcontra => absurd hcontra h1⟩
    by_cases h2 : lowerStr (splitextExt f.path) = ".csv"
    · cases hd : f.data with
      | csv rows =>
        have hpf : process_file f = processCsv rows := by
          unfold process_file
          simp [h1, h2, hd]
        rw [hpf, processCsv_eq]
        intro c hc
        obtain ⟨g, hg, hceq⟩ := chunkify_mem _ 0 c hc
        obtain ⟨hgne, hmem⟩ := groupsOf5_mem _ g hg
        rw [hceq]
        exact pyJoin_ne_empty " " g hgne
          (fun x hx => csvLines_mem rows x (hmem x hx))
      | txt content =>
        have hpf : process_file f = [] := by
          unfold process_file
          simp [h1, h2, hd]
        simp [hpf]
      | unreadable =>
        have hpf : process_file f = [] := by
          unfold process_file
          simp [h1, h2, hd]
        simp [hpf]
    · have hpf : process_file f = [] := by
        unfold process_file
        simp [h1, h2]
      simp [hpf]

theorem chunk_text_postcondition_witness :
    (Chunk.mk "hello" 0).text ≠ "" ∧
    pyStrip (Chunk.mk "hello" 0).text = (Chunk.mk "hello" 0).text :=
  ⟨(chunk_text_postcondition ⟨"notes.txt", FileData.txt " hello \n\nworld"⟩).1
      ⟨"hello", 0⟩ (by decide),
   (chunk_text_postcondition ⟨"notes.txt", FileData.txt " hello \n\nworld"⟩).2
      (Or.inl (by decide)) ⟨"hello", 0⟩ (by decide)⟩

/-! ## C2 and C10: top-k search -/

/-- The hit list `search` asks the index for: the top
`min(top_k, ntotal)` scored positions. -/
def searchHits (s : Store) (qv : Vec) (k : Nat) : List (Nat × ℤ) :=
  faissTopK s.vectors qv (min k s.vectors.length)

theorem scoreListFrom_length (q : Vec) :
    ∀ (i : Nat) (vs : List Vec), (scoreListFrom q i vs).length = vs.length := by
  intro i vs
  induction vs generalizing i with
  | nil => rfl
  | cons v vs ih => simp [scoreListFrom, ih (i + 1)]

theorem scoreListFrom_map_fst (q : Vec) :
    ∀ (i : Nat) (vs : List Vec),
      (scoreListFrom q i vs).map Prod.fst = List.range' i vs.length := by
  intro i vs
  induction vs generalizing i with
  | nil => rfl
  | cons v vs ih =>
    rw [scoreListFrom, List.length_cons, List.range'_succ]
    simp [ih (i + 1)]

theorem mem_scoreListFrom_lt (q : Vec) :
    ∀ (i : Nat) (vs : List Vec) (p : Nat × ℤ),
      p ∈ scoreListFrom q i vs → p.1 < i + vs.length := by
  intro i vs
  induction vs generalizing i with
  | nil => intro p hp; simp [scoreListFrom] at hp
  | cons v vs ih =>
    intro p hp
    rw [scoreListFrom] at hp
    rcases List.mem_cons.mp hp with rfl | hp
    · simp
    · have := ih (i + 1) p hp
      simp only [List.length_cons]
      omega

theorem collectResults_length_le (docs : List Doc) :
    ∀ (n : Nat) (hs : List (Nat × ℤ)),
      (collectResults docs n hs).length ≤ hs.length := by
  intro n hs
  induction hs generalizing n with
  | nil => simp [collectResults]
  | cons h hs ih =>
    rw [collectResults]
    by_cases hd : h.1 < docs.length
    · rw [dif_pos hd]
      simpa using ih (n + 1)
    · rw [dif_neg hd]
      have := ih (n + 1)
      simp only [List.length_cons]
      omega

theorem collectResults_mem (docs : List Doc) :
    ∀ (n : Nat) (hs : List (Nat × ℤ)) (r : SearchResult),
      r ∈ collectResults docs n hs →
      ∃ d ∈ docs, ∃ sc rk, r = toResult d sc rk := by
  intro n hs
  induction hs generalizing n with
  | nil => intro r hr; simp [collectResults] at hr
  | cons h hs ih =>
    intro r hr
    rw [collectResults] at hr
    by_cases hd : h.1 < docs.length
    · rw [dif_pos hd] at hr
      rcases List.mem_cons.mp hr with rfl | hr
      · exact ⟨docs.get ⟨h.1, hd⟩, List.get_mem docs _ hd, h.2, n + 1, rfl⟩
      · exact ih (n + 1) r hr
    · rw [dif_neg hd] at hr
      exact ih (n + 1) r hr

theorem collectResults_length_all (docs : List Doc) :
    ∀ (n : Nat) (hs : List (Nat × ℤ)), (∀ p ∈ hs, p.1 < docs.length) →
      (collectResults docs n hs).length = hs.length := by
  intro n hs
  induction hs generalizing n with
  | nil => intro hall; rfl
  | cons h hs ih =>
    intro hall
    rw [collectResults, dif_pos (hall h (by simp))]
    simpa using ih (n + 1) (fun p hp => hall p (by simp [hp]))

theorem collectResults_getElem? (docs : List Doc) :
    ∀ (n : Nat) (hs : List (Nat × ℤ)), (∀ p ∈ hs, p.1 < docs.length) →
      ∀ (i : Nat) (p : Nat × ℤ), hs[i]? = some p →
        ∃ hd : p.1 < docs.length,
          (collectResults docs n hs)[i]? =
            some (toResult (docs.get ⟨p.1, hd⟩) p.2 (n + i + 1)) := by
  intro n hs
  induction hs generalizing n with
  | nil => intro _ i p hp; simp at hp
  | cons h hs ih =>
    intro hall i p hp
    have hh : h.1 < docs.length := hall h (by simp)
    rw [collectResults, dif_pos hh]
    cases i with
    | zero =>
      simp only [List.getElem?_cons_zero, Option.some.injEq] at hp
      subst hp
      exact ⟨hh, by simp⟩
    | succ j =>
      simp only [List.getElem?_cons_succ] at hp
      obtain ⟨hd, hcr⟩ := ih (n + 1) (fun p2 hp2 => hall p2 (by simp [hp2])) j p hp
      refine ⟨hd, ?_⟩
      rw [List.getElem?_cons_succ, hcr]
      have : n + 1 + j = n + (j + 1) := by omega
      rw [this]

theorem sortedScores_length (qv : Vec) (vecs : List Vec) :
    (List.insertionSort keyLe (scoreListFrom qv 0 vecs)).length = vecs.length := by
  rw [(List.perm_insertionSort keyLe (scoreListFrom qv 0 vecs)).length_eq,
    scoreListFrom_length]

theorem faissTopK_length (vecs : List Vec) (qv : Vec) (m : Nat) :
    (faissTopK vecs qv m).length = min m vecs.length := by
  unfold faissTopK
  rw [List.length_take, sortedScores_length]

theorem mem_faissTopK_lt (vecs : List Vec) (qv : Vec) (m : Nat) (p : Nat × ℤ)
    (hp : p ∈ faissTopK vecs qv m) : p.1 < vecs.length := by
  have h1 : p ∈ List.insertionSort keyLe (scoreListFrom qv 0 vecs) :=
    List.take_subset _ _ hp
  have h2 : p ∈ scoreListFrom qv 0 vecs :=
    (List.perm_insertionSort keyLe _).mem_iff.mp h1
  have := mem_scoreListFrom_lt qv 0 vecs p h2
  omega

theorem faissTopK_pairwise (vecs : List Vec) (qv : Vec) (m : Nat) :
    (faissTopK vecs qv m).Pairwise keyGT := by
  have hsorted : (List.insertionSort keyLe (scoreListFrom qv 0 vecs)).Sorted keyLe :=
    List.sorted_insertionSort keyLe _
  have hle : (faissTopK vecs qv m).Pairwise keyLe :=
    List.Pairwise.sublist (List.take_sublist _ _) hsorted
  have hnd0 : ((scoreListFrom qv 0 vecs).map Prod.fst).Nodup := by
    rw [scoreListFrom_map_fst]
    exact List.nodup_range' 0 vecs.length
  have hnd1 : ((List.insertionSort keyLe (scoreListFrom qv 0 vecs)).map Prod.fst).Nodup :=
    hnd0.perm ((List.perm_insertionSort keyLe _).map Prod.fst).symm
  have hnd2 : ((faissTopK vecs qv m).map Prod.fst).Nodup := by
    refine List.Nodup.sublist ?_ hnd1
    exact (List.take_sublist _ _).map Prod.fst
  have hne : (faissTopK vecs qv m).Pairwise (fun a b => a.1 ≠ b.1) :=
    List.pairwise_map.mp hnd2
  refine (hle.and hne).imp ?_
  rintro a b ⟨hab, hne2⟩
  rcases hab with h | ⟨h1, h2⟩
  · exact Or.inl h
  · exact Or.inr ⟨h1, Nat.lt_of_le_of_ne h2 hne2⟩

theorem faissTopK_selected (vecs : List Vec) (qv : Vec) (m : Nat) :
    ∃ rest, (faissTopK vecs qv m ++ rest).Perm (scoreListFrom qv 0 vecs) ∧
      ∀ a ∈ faissTopK vecs qv m, ∀ b ∈ rest, keyLe a b := by
  refine ⟨(List.insertionSort keyLe (scoreListFrom qv 0 vecs)).drop m, ?_, ?_⟩
  · unfold faissTopK
    rw [List.take_append_drop]
    exact List.perm_insertionSort keyLe _
  · have hsorted : (List.insertionSort keyLe (scoreListFrom qv 0 vecs)).Pairwise keyLe :=
      List.sorted_insertionSort keyLe _
    have hsplit : (List.insertionSort keyLe (scoreListFrom qv 0 vecs)).take m ++
        (List.insertionSort keyLe (scoreListFrom qv 0 vecs)).drop m =
        List.insertionSort keyLe (scoreListFrom qv 0 vecs) :=
      List.take_append_drop m _
    rw [← hsplit] at hsorted
    exact (List.pairwise_append.mp hsorted).2.2

theorem search_eq_collect (P : Provider) (nrm : Vec → Vec) (s : Store) (q : String)
    (k : Nat) (hne : 1 ≤ s.vectors.length) (v : Vec) (hq : P.embed q = some v) :
    search P nrm s q k = collectResults s.documents 0 (searchHits s (nrm v) k) := by
  unfold search searchHits
  rw [if_neg (by omega)]
  have hqe : get_embeddings P [q] = some [v] := by
    rw [get_embeddings_eq]
    simp [embedAll, hq]
  rw [hqe]

/-- C2: when the vector count matches the metadata count, the index is
non-empty and the provider embeds the query, `search` returns exactly
`min(topK, totalStored)` results (so a `topK` beyond the stored count
yields the stored count, not an error); each result's `rank` is its 1-based
position; result `i` is the metadata record at the `i`-th hit position with
that hit's inner-product score; the hit list is sorted by strictly
descending score with ties broken by ascending storage position; and the
hits are a genuinely top-ranked selection: every selected entry is
`keyLe`-above every non-selected one. -/
theorem search_topk_correct (P : Provider) (nrm : Vec → Vec) (s : Store) (q : String)
    (k : Nat) (hlen : s.vectors.length = s.documents.length)
    (hne : 1 ≤ s.vectors.length) (_hk : 1 ≤ k) (v : Vec) (hq : P.embed q = some v) :
    (search P nrm s q k).length = min k s.vectors.length ∧
    (∀ i r, (search P nrm s q k)[i]? = some r → r.rank = i + 1) ∧
    (∀ i p, (searchHits s (nrm v) k)[i]? = some p →
      ∃ hd : p.1 < s.documents.length,
        (search P nrm s q k)[i]? =
          some (toResult (s.documents.get ⟨p.1, hd⟩) p.2 (i + 1))) ∧
    (searchHits s (nrm v) k).Pairwise keyGT ∧
    (∃ rest, (searchHits s (nrm v) k ++ rest).Perm (scoreListFrom (nrm v) 0 s.vectors) ∧
      ∀ a ∈ searchHits s (nrm v) k, ∀ b ∈ rest, keyLe a b) := by
  have hall : ∀ p ∈ searchHits s (nrm v) k, p.1 < s.documents.length := by
    intro p hp
    have := mem_faissTopK_lt s.vectors (nrm v) _ p hp
    omega
  have hsc := search_eq_collect P nrm s q k hne v hq
  have hhitlen : (searchHits s (nrm v) k).length = min k s.vectors.length := by
    unfold searchHits
    rw [faissTopK_length]
    omega
  have hlen1 : (search P nrm s q k).length = min k s.vectors.length := by
    rw [hsc, collectResults_length_all s.documents 0 _ hall, hhitlen]
  have hget : ∀ i p, (searchHits s (nrm v) k)[i]? = some p →
      ∃ hd : p.1 < s.documents.length,
        (search P nrm s q k)[i]? =
          some (toResult (s.documents.get ⟨p.1, hd⟩) p.2 (i + 1)) := by
    intro i p hp
    obtain ⟨hd, hcr⟩ := collectResults_getElem? s.documents 0 _ hall i p hp
    rw [← hsc] at hcr
    simp only [Nat.zero_add] at hcr
    exact ⟨hd, hcr⟩
  refine ⟨hlen1, ?_, hget, faissTopK_pairwise _ _ _, faissTopK_selected _ _ _⟩
  intro i r hr
  have hi : i < (search P nrm s q k).length := by
    by_contra hcon
    rw [List.getElem?_eq_none (by omega)] at hr
    exact Option.noConfusion hr
  have hih : i < (searchHits s (nrm v) k).length := by
    rw [hhitlen]
    omega
  obtain ⟨p, hp⟩ : ∃ p, (searchHits s (nrm v) k)[i]? = some p :=
    ⟨_, List.getElem?_eq_getElem hih⟩
  obtain ⟨hd, hcr⟩ := hget i p hp
  rw [hcr] at hr
  cases hr
  rfl

/-- Provider used by the concrete search scenarios. -/
def cP : Provider := ⟨fun _ => some [1]⟩

/-- Metadata record used by the concrete search scenarios. -/
def cDoc : Doc := ⟨"t0", "f.txt", 0, 0⟩

/-- A store whose vector count (3) exceeds its metadata count (1). -/
def cBadStore : Store := ⟨[[0], [1], [2]], [cDoc]⟩

/-- A consistent three-vector store. -/
def cGoodStore : Store :=
  ⟨[[0], [1], [2]], [⟨"t0", "f.txt", 0, 0⟩, ⟨"t1", "f.txt", 1, 1⟩, ⟨"t2", "f.txt", 2, 2⟩]⟩

theorem search_topk_correct_witness :
    (search cP id cGoodStore "q" 2).length = min 2 cGoodStore.vectors.length :=
  (search_topk_correct cP id cGoodStore "q" 2 (by decide) (by decide) (by decide)
    [1] rfl).1

/-- C10: `search` guards every metadata lookup with a bounds check, so for
any state (in particular one whose vector count exceeds the metadata count)
it returns at most `min(topK, totalStored)` results and every returned
record is a copy of an actual metadata record — never an out-of-range
access.  Hits whose storage position has no metadata record are silently
dropped: on a store with 3 vectors and 1 metadata record, `search` with
`topK = 3` returns a single result whose pre-filter rank is 3, fewer than
`min(3, 3)` and with non-contiguous rank values. -/
theorem search_bounds_guard :
    (∀ (P : Provider) (nrm : Vec → Vec) (s : Store) (q : String) (k : Nat),
      (search P nrm s q k).length ≤ min k s.vectors.length ∧
      ∀ r ∈ search P nrm s q k, ∃ d ∈ s.documents, ∃ sc rk, r = toResult d sc rk) ∧
    ((search cP id cBadStore "q" 3).length < min 3 cBadStore.vectors.length ∧
     (search cP id cBadStore "q" 3).map SearchResult.rank = [3]) := by
  constructor
  · intro P nrm s q k
    by_cases hz : s.vectors.length = 0
    · unfold search
      rw [if_pos hz]
      simp
    · cases hq : P.embed q with
      | none =>
        have hqe : get_embeddings P [q] = none := by
          rw [get_embeddings_eq]
          simp [embedAll, hq]
        unfold search
        rw [if_neg hz, hqe]
        simp
      | some v =>
        rw [search_eq_collect P nrm s q k (by omega) v hq]
        constructor
        · have h1 := collectResults_length_le s.documents 0 (searchHits s (nrm v) k)
          have h2 : (searchHits s (nrm v) k).length = min k s.vectors.length := by
            unfold searchHits
            rw [faissTopK_length]
            omega
          omega
        · intro r hr
          exact collectResults_mem s.documents 0 _ r hr
  · exact ⟨by decide, by decide⟩

theorem search_bounds_guard_witness :
    (search cP id cBadStore "q" 3).length ≤ min 3 cBadStore.vectors.length ∧
    (∃ d ∈ cBadStore.documents, ∃ sc rk, toResult cDoc 0 3 = toResult d sc rk) :=
  ⟨(search_bounds_guard.1 cP id cBadStore "q" 3).1,
   (search_bounds_guard.1 cP id cBadStore "q" 3).2 (toResult cDoc 0 3) (by decide)⟩

end LucieKimoky
